import Mathlib

/-!
Verification of `src/notebooks/pixel_cnn/pixelcnn_helpers.py`.

The first part embeds the causal-mask construction of `PixelConv2D.build_mask`
as a computable development over natural numbers: the 4-dimensional numpy
array `data` (initialized with `np.ones`) becomes a function
`ℕ → ℕ → ℕ → ℕ → ℕ` and the triple python loop becomes a `List.foldl` over
the list of visited `(k1, k2, chan)` index triples, each iteration either
zeroing the whole output-filter slice at its triple or leaving the array
unchanged, exactly as the source does.

The second part embeds the numeric helpers (`sigmoid`, `logistic_cdf`,
`compute_pvals`, `compute_mixture`, `logsoftmax`, and the per-element
branch structure of `pixelcnn_loss`) over the real numbers.
-/

/-- First character of `ptype`: the color channel group, `r`, `g` or `b`. -/
inductive Color where
  | r
  | g
  | b
  deriving DecidableEq

/-- Second character of `ptype`: mask variant `a` or `b`. -/
inductive Variant where
  | a
  | b
  deriving DecidableEq

/-- The `ptype` of a `PixelConv2D` layer, e.g. `ra`, `gb`. -/
structure Ptype where
  color : Color
  variant : Variant
  deriving DecidableEq

/-- `filt_prev` of `PixelConv2D.build_mask`: the lower bound of the input
channel slice belonging to the layer's own color group
(`0`, `int(cin / 3)` or `int(2 * cin / 3)` in the source). -/
def filt_prev (c : Color) (cin : ℕ) : ℕ :=
  match c with
  | Color.r => 0
  | Color.g => cin / 3
  | Color.b => 2 * cin / 3

/-- `filt_thres` of `PixelConv2D.build_mask`: the threshold of the input
channel slice belonging to the layer's own color group
(`int(cin / 3)`, `int(2 * cin / 3)` or `cin` in the source). -/
def filt_thres (c : Color) (cin : ℕ) : ℕ :=
  match c with
  | Color.r => cin / 3
  | Color.g => 2 * cin / 3
  | Color.b => cin

/-- The numpy array `data` of `build_mask`, as a function from the four
indices `k1 k2 chan filt` to the stored value (the stored floats are all
`0.0` or `1.0`, so `ℕ` suffices). -/
def Mask : Type := ℕ → ℕ → ℕ → ℕ → ℕ

/-- The numpy slice assignment `data[k1, k2, chan, :] = 0`. -/
def zeroSlice (m : Mask) (k1 k2 chan : ℕ) : Mask :=
  fun a b c d => if a = k1 ∧ b = k2 ∧ c = chan then 0 else m a b c d

/-- One iteration of the triple loop of `build_mask` at the index triple
`idx = (k1, k2, chan)`: the `if`/`elif` of the source, each branch zeroing
the whole output-filter slice. -/
def maskStep (v : Variant) (mid fp ft : ℕ) (m : Mask) (idx : ℕ × ℕ × ℕ) : Mask :=
  if v = Variant.a ∧ fp ≤ idx.2.2 ∧ idx.2.2 < ft ∧ idx.1 = mid ∧ idx.2.1 = mid then
    zeroSlice m idx.1 idx.2.1 idx.2.2
  else if idx.1 > mid ∨ (idx.1 ≥ mid ∧ idx.2.1 > mid) ∨ idx.2.2 ≥ ft then
    zeroSlice m idx.1 idx.2.1 idx.2.2
  else
    m

/-- The disjunction of the two zeroing conditions of the loop body of
`build_mask` at `(k1, k2, chan)` (the entry ends up `0` iff one of the
`if`/`elif` guards held when its triple was visited). -/
def zeroCond (v : Variant) (mid fp ft k1 k2 chan : ℕ) : Prop :=
  (v = Variant.a ∧ fp ≤ chan ∧ chan < ft ∧ k1 = mid ∧ k2 = mid)
  ∨ k1 > mid ∨ (k1 ≥ mid ∧ k2 > mid) ∨ chan ≥ ft

instance (v : Variant) (mid fp ft k1 k2 chan : ℕ) :
    Decidable (zeroCond v mid fp ft k1 k2 chan) := by
  unfold zeroCond
  infer_instance

/-- The sequence of `(k1, k2, chan)` triples visited by the triple `for`
loop of `build_mask`, in loop order. -/
def maskIndices (ks cin : ℕ) : List (ℕ × ℕ × ℕ) :=
  (List.range ks).flatMap fun k1 =>
    (List.range ks).flatMap fun k2 =>
      (List.range cin).map fun chan => (k1, k2, chan)

/-- `PixelConv2D.build_mask` on a kernel of shape `(ks, ks, cin, cout)`
(the output-filter extent is immaterial: the array is initialized with
`np.ones` and every write covers a whole filter slice): start from the
all-ones array and run the loop. `mid = ks // 2`. -/
def build_mask (p : Ptype) (ks cin : ℕ) : Mask :=
  (maskIndices ks cin).foldl
    (maskStep p.variant (ks / 2) (filt_prev p.color cin) (filt_thres p.color cin))
    (fun _ _ _ _ => 1)

lemma maskStep_apply (v : Variant) (mid fp ft : ℕ) (m : Mask) (x1 x2 x3 : ℕ)
    (a b c d : ℕ) :
    maskStep v mid fp ft m (x1, x2, x3) a b c d
      = if (a = x1 ∧ b = x2 ∧ c = x3) ∧ zeroCond v mid fp ft x1 x2 x3 then 0
        else m a b c d := by
  simp only [maskStep, zeroCond]
  by_cases hA : v = Variant.a ∧ fp ≤ x3 ∧ x3 < ft ∧ x1 = mid ∧ x2 = mid
  · rw [if_pos hA]
    simp only [zeroSlice]
    by_cases hx : a = x1 ∧ b = x2 ∧ c = x3
    · rw [if_pos hx, if_pos ⟨hx, Or.inl hA⟩]
    · rw [if_neg hx, if_neg (fun h => hx h.1)]
  · rw [if_neg hA]
    by_cases hB : x1 > mid ∨ (x1 ≥ mid ∧ x2 > mid) ∨ x3 ≥ ft
    · rw [if_pos hB]
      simp only [zeroSlice]
      by_cases hx : a = x1 ∧ b = x2 ∧ c = x3
      · rw [if_pos hx, if_pos ⟨hx, Or.inr hB⟩]
      · rw [if_neg hx, if_neg (fun h => hx h.1)]
    · rw [if_neg hB, if_neg (fun h => (h.2.elim hA hB))]

lemma foldl_maskStep (v : Variant) (mid fp ft : ℕ) (L : List (ℕ × ℕ × ℕ)) :
    ∀ (m : Mask) (a b c d : ℕ),
    (L.foldl (maskStep v mid fp ft) m) a b c d
      = if (a, b, c) ∈ L ∧ zeroCond v mid fp ft a b c then 0 else m a b c d := by
  induction L with
  | nil => intro m a b c d; simp
  | cons x t ih =>
    intro m a b c d
    obtain ⟨x1, x2, x3⟩ := x
    rw [List.foldl_cons, ih, maskStep_apply]
    by_cases hmem : (a, b, c) ∈ t ∧ zeroCond v mid fp ft a b c
    · rw [if_pos hmem, if_pos ⟨List.mem_cons_of_mem _ hmem.1, hmem.2⟩]
    · rw [if_neg hmem]
      by_cases heq : a = x1 ∧ b = x2 ∧ c = x3
      · obtain ⟨rfl, rfl, rfl⟩ := heq
        by_cases hzc : zeroCond v mid fp ft a b c
        · rw [if_pos ⟨⟨rfl, rfl, rfl⟩, hzc⟩,
            if_pos ⟨List.mem_cons_self _ _, hzc⟩]
        · rw [if_neg (fun h => hzc h.2), if_neg (fun h => hzc h.2)]
      · rw [if_neg (fun h => heq h.1)]
        rw [if_neg]
        intro h
        rcases List.mem_cons.mp h.1 with hhead | htail
        · refine heq ?_
          have := Prod.ext_iff.mp hhead
          have h23 := Prod.ext_iff.mp this.2
          exact ⟨this.1, h23.1, h23.2⟩
        · exact hmem ⟨htail, h.2⟩

lemma mem_maskIndices (ks cin a b c : ℕ) :
    (a, b, c) ∈ maskIndices ks cin ↔ a < ks ∧ b < ks ∧ c < cin := by
  simp only [maskIndices, List.mem_flatMap, List.mem_map, List.mem_range]
  constructor
  · rintro ⟨k1, h1, k2, h2, chan, h3, he⟩
    obtain ⟨rfl, rfl, rfl⟩ : k1 = a ∧ k2 = b ∧ chan = c := by
      simpa [Prod.ext_iff] using he
    exact ⟨h1, h2, h3⟩
  · rintro ⟨h1, h2, h3⟩
    refine ⟨a, h1, b, h2, c, h3, ?_⟩
    simp

/-- Closed form of `build_mask` at any in-range index. -/
lemma build_mask_eval (p : Ptype) (ks cin a b c d : ℕ)
    (ha : a < ks) (hb : b < ks) (hc : c < cin) :
    build_mask p ks cin a b c d
      = if zeroCond p.variant (ks / 2) (filt_prev p.color cin) (filt_thres p.color cin) a b c
        then 0 else 1 := by
  unfold build_mask
  rw [foldl_maskStep]
  by_cases h : zeroCond p.variant (ks / 2) (filt_prev p.color cin) (filt_thres p.color cin) a b c
  · rw [if_pos ⟨(mem_maskIndices ks cin a b c).mpr ⟨ha, hb, hc⟩, h⟩, if_pos h]
  · rw [if_neg (fun hh => h hh.2), if_neg h]

lemma variant_mk (c : Color) (v : Variant) : (Ptype.mk c v).variant = v := rfl

lemma color_mk (c : Color) (v : Variant) : (Ptype.mk c v).color = c := rfl

/-- The three `assert` statements at the head of `PixelConv2D.build_mask`,
checking the kernel shape `(k0, k1, cin, cout)`: square, odd, channel count
divisible by 3.  On success the mask is built. -/
def build_mask_checked (p : Ptype) (shape : ℕ × ℕ × ℕ × ℕ) : Except String Mask :=
  if shape.1 ≠ shape.2.1 then
    Except.error "kernel shape must be equal in first two dims"
  else if shape.1 % 2 ≠ 1 then
    Except.error "kernel shape must be odd size in first two dims"
  else if shape.2.2.1 % 3 ≠ 0 then
    Except.error "kernel shape must be divisible by 3"
  else
    Except.ok (build_mask p shape.1 shape.2.2.1)

/-- `PixelConv2D.build`: raises a ValueError when the input's channel
dimension is undefined (None); otherwise builds the mask for the kernel
shape `kernel_size + (input_dim, filters)`. -/
def pixelConv2D_build (p : Ptype) (channel_dim : Option ℕ) (ks filters : ℕ) :
    Except String Mask :=
  match channel_dim with
  | none =>
    Except.error "The channel dimension of the inputs should be defined. Found None."
  | some input_dim => build_mask_checked p (ks, ks, input_dim, filters)

/-- The `assert img_chns == 3` at the head of `pixelcnn_loss`. -/
def pixelcnn_loss_check (img_chns : ℕ) : Except String Unit :=
  if img_chns = 3 then Except.ok () else Except.error "assert img_chns == 3 failed"

/-- C1: for every kernel shape that passes validation (square by shape,
odd spatial size, input channels divisible by 3) and every ptype, every
in-range mask entry is 0 or 1, and is 0 strictly below the center row,
on the center row strictly right of center, or in a channel group at or
after the layer's own threshold. -/
theorem mask_binary_and_causal (p : Ptype) (ks cin : ℕ)
    (hodd : ks % 2 = 1) (hdiv : cin % 3 = 0)
    (k1 k2 chan f : ℕ) (hk1 : k1 < ks) (hk2 : k2 < ks) (hchan : chan < cin) :
    (build_mask p ks cin k1 k2 chan f = 0 ∨ build_mask p ks cin k1 k2 chan f = 1)
    ∧ (k1 > ks / 2 → build_mask p ks cin k1 k2 chan f = 0)
    ∧ (k1 = ks / 2 → k2 > ks / 2 → build_mask p ks cin k1 k2 chan f = 0)
    ∧ (chan ≥ filt_thres p.color cin → build_mask p ks cin k1 k2 chan f = 0) := by
  rw [build_mask_eval p ks cin k1 k2 chan f hk1 hk2 hchan]
  refine ⟨?_, ?_, ?_, ?_⟩
  · by_cases h : zeroCond p.variant (ks / 2) (filt_prev p.color cin) (filt_thres p.color cin)
      k1 k2 chan
    · exact Or.inl (if_pos h)
    · exact Or.inr (if_neg h)
  · intro h
    exact if_pos (Or.inr (Or.inl h))
  · intro h1 h2
    exact if_pos (Or.inr (Or.inr (Or.inl ⟨h1.ge, h2⟩)))
  · intro h
    exact if_pos (Or.inr (Or.inr (Or.inr h)))

theorem mask_binary_and_causal_witness :
    ((3 : ℕ) % 2 = 1) ∧ ((3 : ℕ) % 3 = 0)
    ∧ ((build_mask ⟨Color.r, Variant.b⟩ 3 3 2 0 0 0 = 0
        ∨ build_mask ⟨Color.r, Variant.b⟩ 3 3 2 0 0 0 = 1)
      ∧ (2 > 3 / 2 → build_mask ⟨Color.r, Variant.b⟩ 3 3 2 0 0 0 = 0)
      ∧ (2 = 3 / 2 → 0 > 3 / 2 → build_mask ⟨Color.r, Variant.b⟩ 3 3 2 0 0 0 = 0)
      ∧ (0 ≥ filt_thres (Ptype.mk Color.r Variant.b).color 3 →
          build_mask ⟨Color.r, Variant.b⟩ 3 3 2 0 0 0 = 0)) :=
  ⟨rfl, rfl,
    mask_binary_and_causal ⟨Color.r, Variant.b⟩ 3 3 rfl rfl 2 0 0 0
      (by decide) (by decide) (by decide)⟩

/-- C5: at the kernel center, for channels in the layer's own group slice,
the variant-a mask is 0 while the variant-b mask is 1; at every other
in-range position the two variants agree. -/
theorem mask_variant_center (c : Color) (ks cin : ℕ)
    (hodd : ks % 2 = 1) (hdiv : cin % 3 = 0)
    (k1 k2 chan f : ℕ) (hk1 : k1 < ks) (hk2 : k2 < ks) (hchan : chan < cin) :
    (k1 = ks / 2 → k2 = ks / 2 → filt_prev c cin ≤ chan → chan < filt_thres c cin →
      build_mask ⟨c, Variant.a⟩ ks cin k1 k2 chan f = 0
      ∧ build_mask ⟨c, Variant.b⟩ ks cin k1 k2 chan f = 1)
    ∧ (¬(k1 = ks / 2 ∧ k2 = ks / 2 ∧ filt_prev c cin ≤ chan ∧ chan < filt_thres c cin) →
      build_mask ⟨c, Variant.a⟩ ks cin k1 k2 chan f
        = build_mask ⟨c, Variant.b⟩ ks cin k1 k2 chan f) := by
  rw [build_mask_eval ⟨c, Variant.a⟩ ks cin k1 k2 chan f hk1 hk2 hchan,
    build_mask_eval ⟨c, Variant.b⟩ ks cin k1 k2 chan f hk1 hk2 hchan]
  simp only [variant_mk, color_mk]
  constructor
  · intro h1 h2 h3 h4
    constructor
    · exact if_pos (Or.inl ⟨rfl, h3, h4, h1, h2⟩)
    · rw [if_neg]
      rintro (⟨hva, _, _, _, _⟩ | hk | ⟨_, hk⟩ | hch)
      · exact Variant.noConfusion hva
      · omega
      · omega
      · omega
  · intro hn
    have hiff : zeroCond Variant.a (ks / 2) (filt_prev c cin) (filt_thres c cin) k1 k2 chan
        ↔ zeroCond Variant.b (ks / 2) (filt_prev c cin) (filt_thres c cin) k1 k2 chan := by
      unfold zeroCond
      constructor
      · rintro (⟨_, h3, h4, h1, h2⟩ | h)
        · exact absurd ⟨h1, h2, h3, h4⟩ hn
        · exact Or.inr h
      · rintro (⟨hv, _⟩ | h)
        · exact Variant.noConfusion hv
        · exact Or.inr h
    exact if_congr hiff rfl rfl

theorem mask_variant_center_witness :
    ((3 : ℕ) % 2 = 1) ∧ ((3 : ℕ) % 3 = 0)
    ∧ build_mask ⟨Color.r, Variant.a⟩ 3 3 1 1 0 0 = 0
    ∧ build_mask ⟨Color.r, Variant.b⟩ 3 3 1 1 0 0 = 1 :=
  ⟨rfl, rfl,
    (mask_variant_center Color.r 3 3 rfl rfl 1 1 0 0
      (by decide) (by decide) (by decide)).1 (by decide) (by decide)
      (by decide) (by decide)⟩

/-- C9: the built mask does not depend on the output-filter index, since
every zeroing assignment writes the whole output-filter slice of the
all-ones initial array. -/
theorem mask_constant_along_filters (p : Ptype) (ks cin k1 k2 chan f1 f2 : ℕ) :
    build_mask p ks cin k1 k2 chan f1 = build_mask p ks cin k1 k2 chan f2 := by
  unfold build_mask
  rw [foldl_maskStep, foldl_maskStep]

/-- C6: each validation failure is fatal: channel count not 3 for the loss,
non-square or even or not-divisible-by-3 kernel shape for `build_mask`,
undefined channel dimension for `PixelConv2D.build`; no result is produced. -/
theorem validation_failures (chns : ℕ) (hchns : chns ≠ 3) (p : Ptype)
    (k0 k1 cin cout : ℕ) (hbad : k0 ≠ k1 ∨ k0 % 2 = 0 ∨ cin % 3 ≠ 0)
    (ks filters : ℕ) :
    (pixelcnn_loss_check chns).isOk = false
    ∧ (build_mask_checked p (k0, k1, cin, cout)).isOk = false
    ∧ (pixelConv2D_build p none ks filters).isOk = false := by
  refine ⟨?_, ?_, ?_⟩
  · simp only [pixelcnn_loss_check, if_neg hchns]
    rfl
  · simp only [build_mask_checked]
    split_ifs with h1 h2 h3
    · rfl
    · rfl
    · rfl
    · exfalso
      rcases hbad with hb | hb | hb
      · exact h1 hb
      · omega
      · exact h3 hb
  · rfl

theorem validation_failures_witness :
    ((2 : ℕ) ≠ 3)
    ∧ ((pixelcnn_loss_check 2).isOk = false
      ∧ (build_mask_checked ⟨Color.r, Variant.a⟩ (2, 2, 3, 1)).isOk = false
      ∧ (pixelConv2D_build ⟨Color.r, Variant.a⟩ none 3 1).isOk = false) :=
  ⟨by decide,
    validation_failures 2 (by decide) ⟨Color.r, Variant.a⟩ 2 2 3 1
      (Or.inr (Or.inl (by decide))) 3 1⟩

/-- `logsoftmax` numerator/denominator helper: `K.max(x, axis=-1)`, the
maximum of the (nonempty) last axis. -/
noncomputable def vmax {n : ℕ} (x : Fin (n + 1) → ℝ) : ℝ :=
  Finset.univ.sup' ⟨0, Finset.mem_univ 0⟩ x

/-- `logsoftmax(x) = x - m - log(sum(exp(x - m)))` with `m = max(x)`,
along a (nonempty) last axis of size `n + 1`. -/
noncomputable def logsoftmax {n : ℕ} (x : Fin (n + 1) → ℝ) : Fin (n + 1) → ℝ :=
  fun i => x i - vmax x - Real.log (∑ j, Real.exp (x j - vmax x))

/-- `tf.nn.softplus`: `log(1 + exp x)`. -/
noncomputable def softplus (x : ℝ) : ℝ := Real.log (1 + Real.exp x)

/-- `K.sigmoid`, the backend sigmoid used inside `pixelcnn_loss`
(no hard saturation, unlike the scalar helper `sigmoid` below). -/
noncomputable def ksigmoid (x : ℝ) : ℝ := 1 / (1 + Real.exp (-x))

/-- `offset = 1. / 127.5 / 2.` of `pixelcnn_loss`. -/
noncomputable def offset : ℝ := 1 / 127.5 / 2

/-- `centered_mean = x - x_decoded_m` of `pixelcnn_loss`, per element. -/
noncomputable def centered_mean (x m : ℝ) : ℝ := x - m

/-- `cdfminus_arg = (centered_mean - offset) * K.exp(x_decoded_invs)`. -/
noncomputable def cdfminus_arg (x m invs : ℝ) : ℝ :=
  (centered_mean x m - offset) * Real.exp invs

/-- `cdfplus_arg = (centered_mean + offset) * K.exp(x_decoded_invs)`. -/
noncomputable def cdfplus_arg (x m invs : ℝ) : ℝ :=
  (centered_mean x m + offset) * Real.exp invs

/-- `mid_in = centered_mean * K.exp(x_decoded_invs)`. -/
noncomputable def mid_in (x m invs : ℝ) : ℝ :=
  centered_mean x m * Real.exp invs

/-- `log_pdf_mid = -mid_in - invs - 2 * softplus(-mid_in)`. -/
noncomputable def log_pdf_mid (x m invs : ℝ) : ℝ :=
  -mid_in x m invs - invs - 2 * softplus (-mid_in x m invs)

/-- `edge_case = log_pdf_mid - log(127.5) + 2.04 * invs - 0.107`. -/
noncomputable def edge_case (x m invs : ℝ) : ℝ :=
  log_pdf_mid x m invs - Real.log 127.5 + 2.04 * invs - 0.107

/-- The per-element `log_ll` of `pixelcnn_loss`: the nested `tf.where`
selecting among the four stability branches, for a replicated target
element `x` against component mean `m` and log-inverse-scale `invs`. -/
noncomputable def log_ll (x m invs : ℝ) : ℝ :=
  if x ≤ -0.999 then
    cdfplus_arg x m invs - softplus (cdfplus_arg x m invs)
  else if x ≥ 0.999 then
    -softplus (cdfminus_arg x m invs)
  else if ksigmoid (cdfplus_arg x m invs) - ksigmoid (cdfminus_arg x m invs) > 1e-5 then
    Real.log (max (ksigmoid (cdfplus_arg x m invs) - ksigmoid (cdfminus_arg x m invs)) 1e-12)
  else
    edge_case x m invs

/-- The scalar `sigmoid` helper: hard saturation to `0.0` below `-20` and
`1.0` above `20`, the smooth formula in between. -/
noncomputable def sigmoid (x : ℝ) : ℝ :=
  if x < -20 then 0 else if x > 20 then 1 else 1 / (1 + Real.exp (-x))

/-- `logistic_cdf(x, loc, scale) = sigmoid((x - loc) / scale)`. -/
noncomputable def logistic_cdf (x loc scale : ℝ) : ℝ := sigmoid ((x - loc) / scale)

/-- Loop body of `compute_pvals`: the probability assigned to bin `i`. -/
noncomputable def pval (m invs : ℝ) (i : ℕ) : ℝ :=
  if i = 0 then
    logistic_cdf ((0.5 - 127.5) / 127.5) m (1 / Real.exp invs)
  else if i = 255 then
    1 - logistic_cdf ((254.5 - 127.5) / 127.5) m (1 / Real.exp invs)
  else
    logistic_cdf (((i : ℝ) + 0.5 - 127.5) / 127.5) m (1 / Real.exp invs)
      - logistic_cdf (((i : ℝ) - 0.5 - 127.5) / 127.5) m (1 / Real.exp invs)

/-- `compute_pvals(m, invs)`: the 256 bin probabilities, in order. -/
noncomputable def compute_pvals (m invs : ℝ) : List ℝ :=
  (List.range 256).map (pval m invs)

/-- `np.sum(components, axis=0)` on a list of equal-length arrays:
elementwise sum (the first array folded with elementwise `+`). -/
noncomputable def npSumAxis0 (components : List (List ℝ)) : List ℝ :=
  match components with
  | [] => []
  | c :: rest => rest.foldl (fun acc comp => List.zipWith (fun u v => u + v) acc comp) c

/-- `compute_mixture(ms, invs, weights, n_comps)`: the weighted sum of the
per-component probability vectors. -/
noncomputable def compute_mixture (ms invsl weights : List ℝ) (n_comps : ℕ) : List ℝ :=
  npSumAxis0 ((List.range n_comps).map fun i =>
    (compute_pvals (ms.getD i 0) (invsl.getD i 0)).map fun pv => weights.getD i 0 * pv)

lemma sigmoid_nonneg (x : ℝ) : 0 ≤ sigmoid x := by
  unfold sigmoid
  split_ifs
  · norm_num
  · norm_num
  · positivity

lemma sigmoid_le_one (x : ℝ) : sigmoid x ≤ 1 := by
  unfold sigmoid
  split_ifs
  · norm_num
  · norm_num
  · rw [div_le_one (by positivity)]
    linarith [Real.exp_pos (-x)]

lemma sigmoid_mono {x y : ℝ} (h : x ≤ y) : sigmoid x ≤ sigmoid y := by
  have smooth_mono : ∀ a b : ℝ, a ≤ b → 1 / (1 + Real.exp (-a)) ≤ 1 / (1 + Real.exp (-b)) := by
    intro a b hab
    apply one_div_le_one_div_of_le (by positivity)
    have := Real.exp_le_exp.mpr (neg_le_neg hab)
    linarith
  unfold sigmoid
  split_ifs <;> try positivity
  all_goals first
    | rfl
    | linarith
    | (exact smooth_mono x y h)
    | (rw [div_le_one (by positivity)]; linarith [Real.exp_pos (-x)])

/-- C10: the scalar sigmoid helper stays in `[0, 1]` and is monotone
nondecreasing despite the hard saturation at `±20`. -/
theorem sigmoid_bounds_and_mono (x y : ℝ) (hxy : x ≤ y) :
    0 ≤ sigmoid x ∧ sigmoid x ≤ 1 ∧ sigmoid x ≤ sigmoid y :=
  ⟨sigmoid_nonneg x, sigmoid_le_one x, sigmoid_mono hxy⟩

theorem sigmoid_bounds_and_mono_witness :
    ((0 : ℝ) ≤ 1) ∧ (0 ≤ sigmoid 0 ∧ sigmoid 0 ≤ 1 ∧ sigmoid 0 ≤ sigmoid 1) :=
  ⟨by norm_num, sigmoid_bounds_and_mono 0 1 (by norm_num)⟩

/-- C2: each element's log-likelihood in `pixelcnn_loss` is selected by
exactly one of four mutually exclusive branches in priority order:
target at the lower extreme, target at the upper extreme, well-conditioned
CDF difference, and the empirically-corrected degenerate-bin case. -/
theorem log_ll_branch_selection (x m invs : ℝ) :
    (x ≤ -0.999 →
      log_ll x m invs = cdfplus_arg x m invs - softplus (cdfplus_arg x m invs))
    ∧ (¬x ≤ -0.999 → x ≥ 0.999 →
      log_ll x m invs = -softplus (cdfminus_arg x m invs))
    ∧ (¬x ≤ -0.999 → ¬x ≥ 0.999 →
      ksigmoid (cdfplus_arg x m invs) - ksigmoid (cdfminus_arg x m invs) > 1e-5 →
      log_ll x m invs
        = Real.log (max (ksigmoid (cdfplus_arg x m invs) - ksigmoid (cdfminus_arg x m invs))
            1e-12))
    ∧ (¬x ≤ -0.999 → ¬x ≥ 0.999 →
      ¬(ksigmoid (cdfplus_arg x m invs) - ksigmoid (cdfminus_arg x m invs) > 1e-5) →
      log_ll x m invs = log_pdf_mid x m invs - Real.log 127.5 + 2.04 * invs - 0.107) := by
  unfold log_ll edge_case
  exact ⟨fun h1 => by rw [if_pos h1],
    fun h1 h2 => by rw [if_neg h1, if_pos h2],
    fun h1 h2 h3 => by rw [if_neg h1, if_neg h2, if_pos h3],
    fun h1 h2 h3 => by rw [if_neg h1, if_neg h2, if_neg h3]⟩

theorem log_ll_branch_selection_witness :
    ((-1 : ℝ) ≤ -0.999)
    ∧ log_ll (-1) 0 0 = cdfplus_arg (-1) 0 0 - softplus (cdfplus_arg (-1) 0 0) :=
  ⟨by norm_num, (log_ll_branch_selection (-1) 0 0).1 (by norm_num)⟩

lemma logistic_cdf_nonneg (x loc scale : ℝ) : 0 ≤ logistic_cdf x loc scale :=
  sigmoid_nonneg _

lemma logistic_cdf_le_one (x loc scale : ℝ) : logistic_cdf x loc scale ≤ 1 :=
  sigmoid_le_one _

lemma logistic_cdf_mono {x1 x2 loc s : ℝ} (hs : 0 < s) (h : x1 ≤ x2) :
    logistic_cdf x1 loc s ≤ logistic_cdf x2 loc s := by
  apply sigmoid_mono
  gcongr

/-- The logistic CDF value at the upper edge of bin `i`, the telescoping
quantity of `compute_pvals`. -/
noncomputable def upperEdgeCdf (m invs : ℝ) (i : ℕ) : ℝ :=
  logistic_cdf (((i : ℝ) + 0.5 - 127.5) / 127.5) m (1 / Real.exp invs)

lemma pval_zero (m invs : ℝ) : pval m invs 0 = upperEdgeCdf m invs 0 := by
  unfold pval upperEdgeCdf
  norm_num

lemma pval_succ (m invs : ℝ) (i : ℕ) (h : i < 254) :
    pval m invs (i + 1) = upperEdgeCdf m invs (i + 1) - upperEdgeCdf m invs i := by
  unfold pval upperEdgeCdf
  rw [if_neg (by omega), if_neg (by omega)]
  have harg : ((i + 1 : ℕ) : ℝ) - 0.5 - 127.5 = ((i : ℕ) : ℝ) + 0.5 - 127.5 := by
    push_cast
    ring
  rw [harg]

lemma pval_last (m invs : ℝ) : pval m invs 255 = 1 - upperEdgeCdf m invs 254 := by
  unfold pval upperEdgeCdf
  rw [if_neg (by omega), if_pos rfl]
  norm_num

lemma pval_nonneg (m invs : ℝ) (i : ℕ) : 0 ≤ pval m invs i := by
  unfold pval
  have hs : (0 : ℝ) < 1 / Real.exp invs := by positivity
  split_ifs
  · exact logistic_cdf_nonneg _ _ _
  · linarith [logistic_cdf_le_one ((254.5 - 127.5) / 127.5) m (1 / Real.exp invs)]
  · have h : ((i : ℝ) - 0.5 - 127.5) / 127.5 ≤ ((i : ℝ) + 0.5 - 127.5) / 127.5 := by
      gcongr
      linarith
    linarith [@logistic_cdf_mono _ _ m _ hs h]

lemma sum_range_list (f : ℕ → ℝ) (n : ℕ) :
    ((List.range n).map f).sum = ∑ i in Finset.range n, f i := by
  induction n with
  | zero => simp
  | succ k ih =>
    rw [List.range_succ, List.map_append, List.sum_append, Finset.sum_range_succ, ih]
    simp

/-- C3: `compute_pvals` returns exactly 256 values, each non-negative, and
they sum to exactly 1 in real arithmetic (the interior CDF differences
telescope between the boundary bins). -/
theorem compute_pvals_normalized (m invs : ℝ) :
    (compute_pvals m invs).length = 256
    ∧ (∀ i : ℕ, 0 ≤ (compute_pvals m invs).getD i 0)
    ∧ (compute_pvals m invs).sum = 1 := by
  have hlen : (compute_pvals m invs).length = 256 := by
    simp [compute_pvals]
  refine ⟨hlen, ?_, ?_⟩
  · intro i
    by_cases hi : i < 256
    · have : (compute_pvals m invs).getD i 0 = pval m invs i := by
        simp [compute_pvals, List.getD_eq_getElem?_getD, List.getElem?_map,
          List.getElem?_range hi]
      rw [this]
      exact pval_nonneg m invs i
    · rw [List.getD_eq_default _ _ (by omega)]
  · have h1 : (compute_pvals m invs).sum = ∑ i in Finset.range 256, pval m invs i :=
      sum_range_list _ 256
    have e1 : ∑ i in Finset.range 256, pval m invs i
        = (∑ i in Finset.range 255, pval m invs i) + pval m invs 255 :=
      Finset.sum_range_succ _ 255
    have e2 : ∑ i in Finset.range 255, pval m invs i
        = (∑ i in Finset.range 254, pval m invs (i + 1)) + pval m invs 0 :=
      Finset.sum_range_succ' _ 254
    have e3 : ∑ i in Finset.range 254, pval m invs (i + 1)
        = ∑ i in Finset.range 254, (upperEdgeCdf m invs (i + 1) - upperEdgeCdf m invs i) :=
      Finset.sum_congr rfl (fun i hi => pval_succ m invs i (Finset.mem_range.mp hi))
    have e4 : ∑ i in Finset.range 254, (upperEdgeCdf m invs (i + 1) - upperEdgeCdf m invs i)
        = upperEdgeCdf m invs 254 - upperEdgeCdf m invs 0 :=
      Finset.sum_range_sub _ 254
    rw [h1, e1, e2, e3, e4, pval_zero, pval_last]
    ring

lemma vmax_add_const {n : ℕ} (x : Fin (n + 1) → ℝ) (c : ℝ) :
    vmax (fun i => x i + c) = vmax x + c := by
  unfold vmax
  apply le_antisymm
  · exact Finset.sup'_le _ _
      (fun i _ => add_le_add_right (Finset.le_sup' x (Finset.mem_univ i)) c)
  · have h : ∀ i : Fin (n + 1),
        x i ≤ Finset.univ.sup' ⟨0, Finset.mem_univ 0⟩ (fun j => x j + c) - c :=
      fun i => le_sub_iff_add_le.mpr (Finset.le_sup' (fun j => x j + c) (Finset.mem_univ i))
    have h2 : Finset.univ.sup' ⟨0, Finset.mem_univ 0⟩ x
        ≤ Finset.univ.sup' ⟨0, Finset.mem_univ 0⟩ (fun j => x j + c) - c :=
      Finset.sup'_le _ x (fun i _ => h i)
    linarith

/-- C7: the components of `logsoftmax` exponentiate and sum to exactly 1
in real arithmetic, and `logsoftmax` is invariant under adding a constant
to every component of its input. -/
theorem logsoftmax_normalized_shift_invariant {n : ℕ} (x : Fin (n + 1) → ℝ) (c : ℝ) :
    (∑ i, Real.exp (logsoftmax x i)) = 1
    ∧ logsoftmax (fun i => x i + c) = logsoftmax x := by
  constructor
  · have hS : 0 < ∑ j, Real.exp (x j - vmax x) :=
      Finset.sum_pos (fun j _ => Real.exp_pos _) ⟨0, Finset.mem_univ 0⟩
    have hterm : ∀ i : Fin (n + 1), Real.exp (logsoftmax x i)
        = Real.exp (x i - vmax x) / (∑ j, Real.exp (x j - vmax x)) := by
      intro i
      simp only [logsoftmax]
      rw [sub_eq_add_neg (x i - vmax x), Real.exp_add, Real.exp_neg, Real.exp_log hS]
      ring
    rw [Finset.sum_congr rfl (fun i _ => hterm i), ← Finset.sum_div]
    exact div_self (ne_of_gt hS)
  · funext i
    simp only [logsoftmax]
    rw [vmax_add_const]
    have harg : ∀ j : Fin (n + 1), x j + c - (vmax x + c) = x j - vmax x := fun j => by ring
    simp only [harg]

lemma npSumAxis0_singleton (l : List ℝ) : npSumAxis0 [l] = l := rfl

/-- C8: `compute_mixture` with a single component of weight 1 equals
`compute_pvals` of that component, entry by entry. -/
theorem compute_mixture_single_component (m invs : ℝ) :
    compute_mixture [m] [invs] [1] 1 = compute_pvals m invs := by
  unfold compute_mixture
  rw [show List.range 1 = [0] from rfl]
  simp only [List.map_cons, List.map_nil]
  rw [npSumAxis0_singleton]
  simp [one_mul]
